import Mathlib

/-!
A shallow embedding of the copy-on-write trie implemented in
`src/primer/trie.cpp` (BusTub project 0), together with proofs about its
`Get`, `Put` and `Remove` operations.

Modelling choices, each tied to the source:

* `children_` is a `std::map<char, std::shared_ptr<const TrieNode>>`; the code
  only ever calls `find`, `at`, `insert`, `erase` and `empty` on it (it never
  iterates), so an association list with map-style lookup/update/erase is a
  faithful model.
* A `TrieNodeWithValue<T>` is a node whose `value` field is `some v`; a plain
  `TrieNode` has `value = none`.  `is_value_node_` is `value.isSome`.
* The boxed value of type `T` is modelled by a tagged value `TVal`; the
  `dynamic_cast<const TrieNodeWithValue<T> *>` in `Get` succeeds exactly when
  the stored tag equals the requested one.  The explicit template
  instantiations in the source are `uint32_t`, `uint64_t` and `std::string`
  (plus two move-only wrappers around `uint32_t`), giving the tags below.
* `Clone()` (from the project header, as described by the spec's data model)
  copies a node's children map and, on a `TrieNodeWithValue`, preserves the
  value; in a functional embedding a clone is therefore the node itself.
* Keys (`std::string_view`) are lists of characters.
-/

set_option autoImplicit false

namespace BusTub

/-- Runtime type tags: the value types `Trie::Put` / `Trie::Get` are
instantiated at in `trie.cpp` (the two move-only instantiations both box a
`uint32_t` and behave like it for the type check). -/
inductive Ty : Type where
  | u32
  | u64
  | str
  deriving DecidableEq, Repr

/-- A boxed value together with its runtime type, modelling the
`std::shared_ptr<T> value_` stored in a `TrieNodeWithValue<T>`. -/
inductive TVal : Type where
  | u32 (n : Nat)
  | u64 (n : Nat)
  | str (s : String)
  deriving DecidableEq, Repr

/-- The runtime type tag of a boxed value. -/
def TVal.ty : TVal → Ty
  | .u32 _ => .u32
  | .u64 _ => .u64
  | .str _ => .str

/-- A trie node: the `children_` map and the optional stored value
(`some v` models a `TrieNodeWithValue`, `none` a plain `TrieNode`). -/
inductive TrieNode : Type where
  | mk (children : List (Char × TrieNode)) (value : Option TVal)

/-- The `children_` field. -/
def TrieNode.children : TrieNode → List (Char × TrieNode)
  | .mk ch _ => ch

/-- The stored value; `isSome` is the `is_value_node_` flag. -/
def TrieNode.value : TrieNode → Option TVal
  | .mk _ v => v

/-- `children_.find(k)` on the map. -/
def findChild : List (Char × TrieNode) → Char → Option TrieNode
  | [], _ => none
  | (c, x) :: rest, k => if c = k then some x else findChild rest k

/-- `children_.at(k) = x` when `k` is present, `children_.insert({k, x})`
when it is not: the source always branches on `find` first, so the combined
update-or-insert is what every write site performs. -/
def setChild : List (Char × TrieNode) → Char → TrieNode → List (Char × TrieNode)
  | [], k, x => [(k, x)]
  | (c, y) :: rest, k, x => if c = k then (k, x) :: rest else (c, y) :: setChild rest k x

/-- `children_.erase(k)`. -/
def eraseChild : List (Char × TrieNode) → Char → List (Char × TrieNode)
  | [], _ => []
  | (c, y) :: rest, k => if c = k then eraseChild rest k else (c, y) :: eraseChild rest k

/-- The `Trie` handle: a possibly-null shared root pointer. -/
structure Trie : Type where
  root : Option TrieNode

/-- `Trie()`. -/
def Trie.empty : Trie := ⟨none⟩

/-- The walk in `Trie::Get`: follow one child edge per key character,
returning the landing node, or `none` as soon as a child is missing. -/
def findNode : TrieNode → List Char → Option TrieNode
  | n, [] => some n
  | n, c :: rest =>
    match findChild n.children c with
    | some child => findNode child rest
    | none => none

/-- `Trie::Get<T>(key)`: null-root check, walk, `is_value_node_` check, and
the checked downcast (tag comparison).  Returns the boxed value on success. -/
def Trie.Get (t : Trie) (τ : Ty) (key : List Char) : Option TVal :=
  match t.root with
  | none => none
  | some r =>
    match findNode r key with
    | none => none
    | some n =>
      match n.value with
      | some v => if v.ty = τ then some v else none
      | none => none

/-- The stored value (of whatever type) at `key` under node `n`. -/
def valueAt (n : TrieNode) (key : List Char) : Option TVal :=
  (findNode n key).bind TrieNode.value

/-- The stored value (of whatever type) at `key` in `t`. -/
def Trie.valueAt (t : Trie) (key : List Char) : Option TVal :=
  t.root.bind (fun r => BusTub.valueAt r key)

/-- The children map of the root node (empty for the empty trie). -/
def Trie.rootChildren (t : Trie) : List (Char × TrieNode) :=
  match t.root with
  | none => []
  | some r => r.children

/-- The descend/build/unwind loops of `Trie::Put` below the root, for a
non-empty remaining key, rebuilding the current (cloned) node:

* final character (`[c]`, the stack-unwind's first iteration): the new
  value-bearing node inherits the children of the node previously at that
  slot when one exists (`slot->children_ = ...at(key_char)->children_`),
  and is spliced in, replacing any prior entry;
* earlier character: the existing child is cloned (or a fresh plain node is
  created once the path breaks, `make_unique<TrieNode>(...)`), recursively
  rebuilt, and relinked into the clone's children map. -/
def putGo (n : TrieNode) : List Char → TVal → TrieNode
  | [c], v =>
    let inherited : List (Char × TrieNode) :=
      match findChild n.children c with
      | some old => old.children
      | none => []
    .mk (setChild n.children c (.mk inherited (some v))) n.value
  | c :: c2 :: rest, v =>
    let child := (findChild n.children c).getD (.mk [] none)
    .mk (setChild n.children c (putGo child (c2 :: rest) v)) n.value
  | [], _ => n

/-- `Trie::Put<T>(key, value)`.  The root is cloned (value preserved) or
created fresh.  Empty key: a value-bearing root is built from the clone's
children.  A one-character key never enters the descend loop, so the final
splice happens at the root (`new_root->children_.at/insert`) where no
children-inheritance branch exists: the new value node has empty children.
Longer keys go through the loops modelled by `putGo`. -/
def Trie.Put (t : Trie) (key : List Char) (v : TVal) : Trie :=
  let root := t.root.getD (.mk [] none)
  match key with
  | [] => ⟨some (.mk root.children (some v))⟩
  | [c] => ⟨some (.mk (setChild root.children c (.mk [] (some v))) root.value)⟩
  | c :: c2 :: rest =>
    let child := (findChild root.children c).getD (.mk [] none)
    ⟨some (.mk (setChild root.children c (putGo child (c2 :: rest) v)) root.value)⟩

/-- Outcome of `Trie::Remove`'s walk-and-delete on one (cloned) node. -/
inductive RemoveResult : Type where
  | interrupted
  | replaced (m : TrieNode)
  | deleted

/-- The walk, delete and upward propagation of `Trie::Remove` on the clone
of one node, for the remaining key:

* key consumed: a value node with no children is deleted; a value node with
  children is replaced by a plain node carrying the same children
  (`make_unique<TrieNode>(TrieNode(slot->children_))`); a non-value node is
  a no-op (the rebuilt clone stands);
* missing child partway: the walk is interrupted (`Remove` then returns a
  clone of the untouched input);
* child replaced: relink it (`children_.at(char_key) = ...`);
* child deleted: erase its entry; if the node is now childless and
  valueless it is deleted as well (`children_.empty() && !is_value_node_`),
  otherwise it survives with the erased map. -/
def removeGo (n : TrieNode) : List Char → RemoveResult
  | [] =>
    match n.value with
    | some _ => if n.children.isEmpty then .deleted else .replaced (.mk n.children none)
    | none => .replaced n
  | c :: rest =>
    match findChild n.children c with
    | none => .interrupted
    | some child =>
      match removeGo child rest with
      | .interrupted => .interrupted
      | .replaced m => .replaced (.mk (setChild n.children c m) n.value)
      | .deleted =>
        let ch := eraseChild n.children c
        if ch.isEmpty && n.value.isNone then .deleted else .replaced (.mk ch n.value)

/-- `Trie::Remove(key)`.  Null root: empty trie.  Empty key: a childless
root yields the empty trie; otherwise the function builds a stripped root
but then overwrites `new_root` with the untouched clone popped from the
stack (`new_root = std::move(slot)`), so the returned trie is a clone of
the input, value included.  Non-empty key: walk and delete as in
`removeGo`; an interrupted walk returns a clone of the input; afterwards a
root left valueless and childless collapses to the empty trie. -/
def Trie.Remove (t : Trie) (key : List Char) : Trie :=
  match t.root with
  | none => ⟨none⟩
  | some r =>
    match key with
    | [] => if r.children.isEmpty then ⟨none⟩ else ⟨some r⟩
    | c :: rest =>
      match removeGo r (c :: rest) with
      | .interrupted => ⟨some r⟩
      | .deleted => ⟨none⟩
      | .replaced m =>
        if m.value.isNone && m.children.isEmpty then ⟨none⟩ else ⟨some m⟩

mutual

/-- A node is alive when it carries a value or has children — i.e. it is not
a dead node — and all nodes below it are alive as well. -/
def TrieNode.alive : TrieNode → Bool
  | .mk ch v => (v.isSome || !ch.isEmpty) && childrenAlive ch

/-- All nodes in a children map are alive. -/
def childrenAlive : List (Char × TrieNode) → Bool
  | [] => true
  | (_, x) :: rest => TrieNode.alive x && childrenAlive rest

end

/-- The dead-node invariant for a whole trie: no node reachable from the
root is simultaneously valueless and childless. -/
def Trie.wf (t : Trie) : Bool :=
  match t.root with
  | none => true
  | some r => r.alive

/-- The tries reachable from the empty trie by any sequence of `Put` and
`Remove` operations. -/
inductive Reachable : Trie → Prop where
  | empty : Reachable Trie.empty
  | put (t : Trie) (k : List Char) (v : TVal) : Reachable t → Reachable (t.Put k v)
  | remove (t : Trie) (k : List Char) : Reachable t → Reachable (t.Remove k)

/-!
### A store model of the node graph

Claim C4 is about aliasing: a `Put`/`Remove` builds its result out of
`Clone()`d and freshly constructed nodes and must never write through a
pointer into the receiver's version.  To state that, nodes need identity, so
the operations are repeated here over an explicit store: node records hold
child *addresses*, allocation appends to the store, `Clone()` allocates a
copy of a record, and every in-place update of a cloned node
(`children_.at/insert/erase`, `slot->children_ = ...`) becomes a store write
at that clone's address.  The control flow is the same, branch for branch,
as in the functional model above; temporaries the C++ frees on early return
simply remain as unreachable garbage, which does not affect any read of a
previously existing address.
-/

/-- A stored node record: the children map (symbol to node address) and the
optional value. -/
structure NodeR : Type where
  children : List (Char × Nat)
  value : Option TVal
  deriving DecidableEq, Repr

/-- The node store; an address is an index, allocation appends. -/
structure Store : Type where
  mem : List NodeR
  deriving DecidableEq, Repr

/-- Number of allocated addresses. -/
def Store.size (σ : Store) : Nat := σ.mem.length

/-- Dereference an address. -/
def Store.read (σ : Store) (a : Nat) : Option NodeR := σ.mem[a]?

/-- Allocate a fresh node (`make_unique` / `Clone`), returning its address. -/
def Store.alloc (σ : Store) (nr : NodeR) : Store × Nat :=
  (⟨σ.mem ++ [nr]⟩, σ.mem.length)

/-- Update the node at an (already allocated) address in place. -/
def Store.write (σ : Store) (a : Nat) (nr : NodeR) : Store := ⟨σ.mem.set a nr⟩

/-- `children_.find(k)` on an address map. -/
def findAddr : List (Char × Nat) → Char → Option Nat
  | [], _ => none
  | (c, x) :: rest, k => if c = k then some x else findAddr rest k

/-- `children_.at(k) = x` / `children_.insert({k, x})` on an address map. -/
def setAddr : List (Char × Nat) → Char → Nat → List (Char × Nat)
  | [], k, x => [(k, x)]
  | (c, y) :: rest, k, x => if c = k then (k, x) :: rest else (c, y) :: setAddr rest k x

/-- `children_.erase(k)` on an address map. -/
def eraseAddr : List (Char × Nat) → Char → List (Char × Nat)
  | [], _ => []
  | (c, y) :: rest, k => if c = k then eraseAddr rest k else (c, y) :: eraseAddr rest k

/-- `Clone()`: allocate a copy of the record at `a` (children map copied,
value preserved). -/
def cloneH (σ : Store) (a : Nat) : Store × Nat :=
  σ.alloc ((σ.read a).getD ⟨[], none⟩)

/-- A `Trie` handle over the store: a possibly-null root address. -/
structure TrieH : Type where
  root : Option Nat
  deriving DecidableEq, Repr

/-- The walk of `Trie::Get` over the store. -/
def findNodeH (σ : Store) : Nat → List Char → Option Nat
  | a, [] => some a
  | a, c :: rest =>
    match σ.read a with
    | none => none
    | some nr =>
      match findAddr nr.children c with
      | some b => findNodeH σ b rest
      | none => none

/-- `Trie::Get<T>` over the store. -/
def GetH (σ : Store) (t : TrieH) (τ : Ty) (key : List Char) : Option TVal :=
  match t.root with
  | none => none
  | some r =>
    match findNodeH σ r key with
    | none => none
    | some a =>
      match σ.read a with
      | none => none
      | some nr =>
        match nr.value with
        | some v => if v.ty = τ then some v else none
        | none => none

/-- The descend/build/unwind loops of `Trie::Put` over the store: `parent`
is the address of the already-cloned (hence freshly allocated) current node;
each existing child on the path is cloned, missing suffix nodes are
allocated fresh, the value node inherits the children of a previously
existing final node, and every relink writes the parent clone in place. -/
def putGoH (σ : Store) (parent : Nat) : List Char → TVal → Store
  | [c], v =>
    let pr := (σ.read parent).getD ⟨[], none⟩
    match findAddr pr.children c with
    | some old =>
      let oldr := (σ.read old).getD ⟨[], none⟩
      let p1 := σ.alloc ⟨oldr.children, some v⟩
      p1.1.write parent ⟨setAddr pr.children c p1.2, pr.value⟩
    | none =>
      let p1 := σ.alloc ⟨[], some v⟩
      p1.1.write parent ⟨setAddr pr.children c p1.2, pr.value⟩
  | c :: c2 :: rest, v =>
    let pr := (σ.read parent).getD ⟨[], none⟩
    let childR := ((findAddr pr.children c).bind σ.read).getD ⟨[], none⟩
    let p1 := σ.alloc childR
    let σ2 := putGoH p1.1 p1.2 (c2 :: rest) v
    σ2.write parent ⟨setAddr pr.children c p1.2, pr.value⟩
  | [], _ => σ

/-- `Trie::Put` over the store: clone (or freshly create) the root, then as
in the functional model — empty key allocates a value-bearing root from the
clone's children, a one-character key splices a fresh value node directly
under the root clone, longer keys run the loops of `putGoH`. -/
def PutH (σ : Store) (t : TrieH) (key : List Char) (v : TVal) : Store × TrieH :=
  let p1 :=
    match t.root with
    | none => σ.alloc ⟨[], none⟩
    | some r => cloneH σ r
  let nr := (p1.1.read p1.2).getD ⟨[], none⟩
  match key with
  | [] =>
    let p2 := p1.1.alloc ⟨nr.children, some v⟩
    (p2.1, ⟨some p2.2⟩)
  | [c] =>
    let p2 := p1.1.alloc ⟨[], some v⟩
    (p2.1.write p1.2 ⟨setAddr nr.children c p2.2, nr.value⟩, ⟨some p1.2⟩)
  | c :: c2 :: rest =>
    let childR := ((findAddr nr.children c).bind p1.1.read).getD ⟨[], none⟩
    let p2 := p1.1.alloc childR
    let σ3 := putGoH p2.1 p2.2 (c2 :: rest) v
    (σ3.write p1.2 ⟨setAddr nr.children c p2.2, nr.value⟩, ⟨some p1.2⟩)

/-- Outcome of the store-level walk/delete of `Trie::Remove`. -/
inductive RemResH : Type where
  | interrupted
  | replacedBy (a : Nat)
  | deleted

/-- The walk, delete and propagation of `Trie::Remove` over the store; `a`
is the address of the already-cloned current node.  A stripped target is a
fresh plain allocation (the parent relinks to it); erasures and relinks
write the clone in place. -/
def removeGoH (σ : Store) (a : Nat) : List Char → Store × RemResH
  | [] =>
    let nr := (σ.read a).getD ⟨[], none⟩
    match nr.value with
    | some _ =>
      if nr.children.isEmpty then (σ, .deleted)
      else
        let p1 := σ.alloc ⟨nr.children, none⟩
        (p1.1, .replacedBy p1.2)
    | none => (σ, .replacedBy a)
  | c :: rest =>
    let nr := (σ.read a).getD ⟨[], none⟩
    match findAddr nr.children c with
    | none => (σ, .interrupted)
    | some childOld =>
      let p1 := cloneH σ childOld
      match removeGoH p1.1 p1.2 rest with
      | (σ2, .interrupted) => (σ2, .interrupted)
      | (σ2, .replacedBy b) =>
        (σ2.write a ⟨setAddr nr.children c b, nr.value⟩, .replacedBy a)
      | (σ2, .deleted) =>
        let ch := eraseAddr nr.children c
        let σ3 := σ2.write a ⟨ch, nr.value⟩
        if ch.isEmpty && nr.value.isNone then (σ3, .deleted) else (σ3, .replacedBy a)

/-- `Trie::Remove` over the store, including the extra allocations the C++
performs and then abandons (the stripped root on the empty-key path, the
fresh root clone on an interrupted walk). -/
def RemoveH (σ : Store) (t : TrieH) (key : List Char) : Store × TrieH :=
  match t.root with
  | none => (σ, ⟨none⟩)
  | some r =>
    let p1 := cloneH σ r
    let nr := (p1.1.read p1.2).getD ⟨[], none⟩
    match key with
    | [] =>
      if nr.children.isEmpty then (p1.1, ⟨none⟩)
      else
        let p2 := p1.1.alloc ⟨nr.children, none⟩
        (p2.1, ⟨some p1.2⟩)
    | c :: rest =>
      match removeGoH p1.1 p1.2 (c :: rest) with
      | (σ2, .interrupted) =>
        let p3 := cloneH σ2 r
        (p3.1, ⟨some p3.2⟩)
      | (σ2, .deleted) => (σ2, ⟨none⟩)
      | (σ2, .replacedBy b) =>
        let mr := (σ2.read b).getD ⟨[], none⟩
        if mr.value.isNone && mr.children.isEmpty then (σ2, ⟨none⟩)
        else (σ2, ⟨some b⟩)

/-- Every child address stored in an allocated node is itself allocated. -/
def Store.Closed (σ : Store) : Prop :=
  ∀ nr ∈ σ.mem, ∀ p ∈ nr.children, p.2 < σ.mem.length

/-- The handle's root address, when present, is allocated. -/
def rootOk (σ : Store) (t : TrieH) : Bool :=
  match t.root with
  | none => true
  | some r => r < σ.size

/-! ### Basic lemmas about nodes and the children map -/

@[simp]
theorem TrieNode.children_mk (ch : List (Char × TrieNode)) (v : Option TVal) :
    (TrieNode.mk ch v).children = ch := rfl

@[simp]
theorem TrieNode.value_mk (ch : List (Char × TrieNode)) (v : Option TVal) :
    (TrieNode.mk ch v).value = v := rfl

theorem TrieNode.eta (n : TrieNode) : TrieNode.mk n.children n.value = n := by
  cases n
  rfl

@[simp]
theorem findChild_setChild_self (l : List (Char × TrieNode)) (c : Char) (x : TrieNode) :
    findChild (setChild l c x) c = some x := by
  induction l with
  | nil => simp [setChild, findChild]
  | cons p rest ih =>
    obtain ⟨c1, y⟩ := p
    by_cases h : c1 = c <;> simp [setChild, findChild, h, ih]

theorem findChild_setChild_ne (l : List (Char × TrieNode)) (c c2 : Char) (x : TrieNode)
    (h : c2 ≠ c) : findChild (setChild l c x) c2 = findChild l c2 := by
  induction l with
  | nil => simp [setChild, findChild, Ne.symm h]
  | cons p rest ih =>
    obtain ⟨c1, y⟩ := p
    by_cases h1 : c1 = c
    · subst h1
      simp [setChild, findChild, Ne.symm h, h]
    · simp [setChild, findChild, h1, ih]

@[simp]
theorem findChild_eraseChild_self (l : List (Char × TrieNode)) (c : Char) :
    findChild (eraseChild l c) c = none := by
  induction l with
  | nil => simp [eraseChild, findChild]
  | cons p rest ih =>
    obtain ⟨c1, y⟩ := p
    by_cases h : c1 = c <;> simp [eraseChild, findChild, h, ih]

theorem findChild_eraseChild_ne (l : List (Char × TrieNode)) (c c2 : Char) (h : c2 ≠ c) :
    findChild (eraseChild l c) c2 = findChild l c2 := by
  induction l with
  | nil => simp [eraseChild, findChild]
  | cons p rest ih =>
    obtain ⟨c1, y⟩ := p
    by_cases h1 : c1 = c
    · subst h1
      simp [eraseChild, findChild, Ne.symm h, ih]
    · simp [eraseChild, findChild, h1, ih]

theorem setChild_of_findChild (l : List (Char × TrieNode)) (c : Char) (x : TrieNode)
    (h : findChild l c = some x) : setChild l c x = l := by
  induction l with
  | nil => simp [findChild] at h
  | cons p rest ih =>
    obtain ⟨c1, y⟩ := p
    by_cases h1 : c1 = c
    · subst h1
      simp [findChild] at h
      simp [setChild, h]
    · simp [findChild, h1] at h
      simp [setChild, h1, ih h]

theorem eraseChild_eq_nil_findChild (l : List (Char × TrieNode)) (c c2 : Char)
    (h : eraseChild l c = []) (hne : c2 ≠ c) : findChild l c2 = none := by
  induction l with
  | nil => simp [findChild]
  | cons p rest ih =>
    obtain ⟨c1, y⟩ := p
    by_cases h1 : c1 = c
    · subst h1
      simp [eraseChild] at h
      simp [findChild, Ne.symm hne, ih h]
    · simp [eraseChild, h1] at h

theorem findChild_isEmpty (l : List (Char × TrieNode)) (c : Char) (x : TrieNode)
    (h : findChild l c = some x) : l.isEmpty = false := by
  cases l with
  | nil => simp [findChild] at h
  | cons p rest => rfl

@[simp]
theorem setChild_isEmpty (l : List (Char × TrieNode)) (c : Char) (x : TrieNode) :
    (setChild l c x).isEmpty = false := by
  cases l with
  | nil => rfl
  | cons p rest =>
    obtain ⟨c1, y⟩ := p
    by_cases h : c1 = c <;> simp [setChild, h]

/-! ### Bridging `Get` and `valueAt` -/

@[simp]
theorem valueAt_nil (n : TrieNode) : valueAt n [] = n.value := rfl

theorem valueAt_cons_found (n child : TrieNode) (c : Char) (rest : List Char)
    (h : findChild n.children c = some child) :
    valueAt n (c :: rest) = valueAt child rest := by
  simp [valueAt, findNode, h]

theorem valueAt_cons_missing (n : TrieNode) (c : Char) (rest : List Char)
    (h : findChild n.children c = none) : valueAt n (c :: rest) = none := by
  simp [valueAt, findNode, h]

theorem Trie.Get_eq_valueAt (t : Trie) (τ : Ty) (key : List Char) :
    t.Get τ key = (t.valueAt key).bind (fun v => if v.ty = τ then some v else none) := by
  cases t with
  | mk root =>
    cases root with
    | none => rfl
    | some r =>
      simp only [Trie.Get, Trie.valueAt, BusTub.valueAt]
      cases hf : findNode r key with
      | none => simp [hf]
      | some n =>
        cases hv : n.value with
        | none => simp [hf, hv]
        | some v => simp [hf, hv]

@[simp]
theorem Trie.valueAt_some (r : TrieNode) (key : List Char) :
    Trie.valueAt ⟨some r⟩ key = BusTub.valueAt r key := rfl

@[simp]
theorem Trie.valueAt_none (key : List Char) : Trie.valueAt ⟨none⟩ key = none := rfl

/-! ### Put reaches the key it stores -/

theorem valueAt_putGo (n : TrieNode) (v : TVal) :
    (cs : List Char) → cs ≠ [] → valueAt (putGo n cs v) cs = some v
  | [c], _ => by
    simp [putGo, valueAt, findNode]
  | c :: c2 :: rest, _ => by
    have ih := valueAt_putGo ((findChild n.children c).getD (.mk [] none)) v (c2 :: rest)
      (by simp)
    simp only [putGo, valueAt, findNode, TrieNode.children_mk, findChild_setChild_self] at ih ⊢
    exact ih

theorem Trie.valueAt_put_self (t : Trie) (key : List Char) (v : TVal) :
    (t.Put key v).valueAt key = some v := by
  cases key with
  | nil => cases t with | mk root => cases root <;> rfl
  | cons c rest =>
    cases rest with
    | nil =>
      simp [Trie.Put, BusTub.valueAt, findNode]
    | cons c2 rest2 =>
      have ih := valueAt_putGo
        ((findChild (t.root.getD (.mk [] none)).children c).getD (.mk [] none)) v
        (c2 :: rest2) (by simp)
      simp only [BusTub.valueAt, findNode, TrieNode.children_mk] at ih
      simp [Trie.Put, BusTub.valueAt, findNode]
      exact ih

/-! ### Remove: no-op on absent keys, frame on other keys -/

theorem bool_and_true {a b : Bool} (h : (a && b) = true) : a = true ∧ b = true := by
  simp only [Bool.and_eq_true] at h
  exact h

theorem valueAt_congr_children (m n : TrieNode) (c : Char) (rest : List Char)
    (h : findChild m.children c = findChild n.children c) :
    valueAt m (c :: rest) = valueAt n (c :: rest) := by
  cases hf : findChild n.children c with
  | none =>
    rw [valueAt_cons_missing m c rest (h.trans hf), valueAt_cons_missing n c rest hf]
  | some child =>
    rw [valueAt_cons_found m child c rest (h.trans hf), valueAt_cons_found n child c rest hf]

theorem removeGo_of_valueAt_none (n : TrieNode) :
    (cs : List Char) → valueAt n cs = none →
      removeGo n cs = .interrupted ∨ removeGo n cs = .replaced n
  | [], h => by
    simp only [valueAt_nil] at h
    simp [removeGo, h]
  | c :: rest, h => by
    cases hf : findChild n.children c with
    | none => simp [removeGo, hf]
    | some child =>
      rw [valueAt_cons_found n child c rest hf] at h
      rcases removeGo_of_valueAt_none child rest h with h1 | h1
      · simp [removeGo, hf, h1]
      · have hsame : TrieNode.mk (setChild n.children c child) n.value = n := by
          rw [setChild_of_findChild n.children c child hf, TrieNode.eta]
        simp [removeGo, hf, h1, hsame]

theorem removeGo_deleted_valueAt (n : TrieNode) :
    (cs : List Char) → removeGo n cs = .deleted →
      ∀ cs2, cs2 ≠ cs → valueAt n cs2 = none
  | [], h, cs2, hne => by
    cases hv : n.value with
    | none => simp [removeGo, hv] at h
    | some v =>
      by_cases hc : n.children.isEmpty
      · have hnil : n.children = [] := by simpa using hc
        cases cs2 with
        | nil => exact absurd rfl hne
        | cons c2 rest2 =>
          exact valueAt_cons_missing n c2 rest2 (by simp [hnil, findChild])
      · simp [removeGo, hv, hc] at h
  | c :: rest, h, cs2, hne => by
    cases hf : findChild n.children c with
    | none => simp [removeGo, hf] at h
    | some child =>
      cases hr : removeGo child rest with
      | interrupted => simp [removeGo, hf, hr] at h
      | replaced m => simp [removeGo, hf, hr] at h
      | deleted =>
        by_cases hg : (eraseChild n.children c).isEmpty && n.value.isNone
        · have hempty : (eraseChild n.children c).isEmpty = true := (bool_and_true hg).1
          have hvnone : n.value = none :=
            Option.isNone_iff_eq_none.mp (bool_and_true hg).2
          cases cs2 with
          | nil => simpa using hvnone
          | cons c2 rest2 =>
            by_cases hcc : c2 = c
            · subst hcc
              have hrest : rest2 ≠ rest := by
                intro he
                exact hne (by rw [he])
              rw [valueAt_cons_found n child c2 rest2 hf]
              exact removeGo_deleted_valueAt child rest hr rest2 hrest
            · refine valueAt_cons_missing n c2 rest2 ?_
              have hnil : eraseChild n.children c = [] := by simpa using hempty
              exact eraseChild_eq_nil_findChild n.children c c2 hnil hcc
        · simp [removeGo, hf, hr, hg] at h

theorem removeGo_replaced_valueAt (n : TrieNode) :
    (cs : List Char) → (m : TrieNode) → removeGo n cs = .replaced m →
      ∀ cs2, cs2 ≠ cs → valueAt m cs2 = valueAt n cs2
  | [], m, h, cs2, hne => by
    cases hv : n.value with
    | none =>
      simp only [removeGo, hv] at h
      cases h
      rfl
    | some v =>
      by_cases hc : n.children.isEmpty
      · simp [removeGo, hv, hc] at h
      · simp only [removeGo, hv, hc, Bool.false_eq_true, if_false] at h
        cases h
        cases cs2 with
        | nil => exact absurd rfl hne
        | cons c2 rest2 => exact valueAt_congr_children _ n c2 rest2 rfl
  | c :: rest, m, h, cs2, hne => by
    cases hf : findChild n.children c with
    | none => simp [removeGo, hf] at h
    | some child =>
      cases hr : removeGo child rest with
      | interrupted => simp [removeGo, hf, hr] at h
      | replaced mc =>
        simp only [removeGo, hf, hr] at h
        cases h
        cases cs2 with
        | nil => simp
        | cons c2 rest2 =>
          by_cases hcc : c2 = c
          · subst hcc
            have hrest : rest2 ≠ rest := by
              intro he
              exact hne (by rw [he])
            rw [valueAt_cons_found _ mc c2 rest2 (by simp),
              valueAt_cons_found n child c2 rest2 hf]
            exact removeGo_replaced_valueAt child rest mc hr rest2 hrest
          · exact valueAt_congr_children _ n c2 rest2
              (by simpa using findChild_setChild_ne n.children c c2 mc hcc)
      | deleted =>
        by_cases hg : (eraseChild n.children c).isEmpty && n.value.isNone
        · simp [removeGo, hf, hr, hg] at h
        · simp only [removeGo, hf, hr, hg, Bool.false_eq_true, if_false] at h
          cases h
          cases cs2 with
          | nil => simp
          | cons c2 rest2 =>
            by_cases hcc : c2 = c
            · subst hcc
              have hrest : rest2 ≠ rest := by
                intro he
                exact hne (by rw [he])
              rw [valueAt_cons_missing _ c2 rest2 (by simp),
                valueAt_cons_found n child c2 rest2 hf]
              exact (removeGo_deleted_valueAt child rest hr rest2 hrest).symm
            · exact valueAt_congr_children _ n c2 rest2
                (by simpa using findChild_eraseChild_ne n.children c c2 hcc)

theorem Trie.remove_absent_key_valueAt (t : Trie) (k : List Char)
    (h : t.valueAt k = none) (k2 : List Char) :
    (t.Remove k).valueAt k2 = t.valueAt k2 := by
  cases t with
  | mk root =>
    cases root with
    | none => rfl
    | some r =>
      cases k with
      | nil =>
        have hv : r.value = none := by simpa using h
        by_cases hc : r.children.isEmpty
        · have hnil : r.children = [] := by simpa using hc
          simp only [Trie.Remove, hc, if_true]
          cases k2 with
          | nil => simp [hv]
          | cons c2 rest2 =>
            simp [valueAt_cons_missing r c2 rest2 (by simp [hnil, findChild])]
        · simp [Trie.Remove, hc]
      | cons c rest =>
        have h' : BusTub.valueAt r (c :: rest) = none := by simpa using h
        rcases removeGo_of_valueAt_none r (c :: rest) h' with h1 | h1
        · simp [Trie.Remove, h1]
        · simp only [Trie.Remove, h1]
          by_cases hdead : r.value.isNone && r.children.isEmpty
          · have hvnone : r.value = none :=
              Option.isNone_iff_eq_none.mp (bool_and_true hdead).1
            have hnil : r.children = [] := by
              simpa using (bool_and_true hdead).2
            simp only [hdead, if_true]
            cases k2 with
            | nil => simp [hvnone]
            | cons c2 rest2 =>
              simp [valueAt_cons_missing r c2 rest2 (by simp [hnil, findChild])]
          · simp [hdead]

theorem Trie.remove_other_key_valueAt (t : Trie) (k k2 : List Char) (h : k2 ≠ k) :
    (t.Remove k).valueAt k2 = t.valueAt k2 := by
  cases t with
  | mk root =>
    cases root with
    | none => rfl
    | some r =>
      cases k with
      | nil =>
        by_cases hc : r.children.isEmpty
        · have hnil : r.children = [] := by simpa using hc
          simp only [Trie.Remove, hc, if_true]
          cases k2 with
          | nil => exact absurd rfl h
          | cons c2 rest2 =>
            simp [valueAt_cons_missing r c2 rest2 (by simp [hnil, findChild])]
        · simp [Trie.Remove, hc]
      | cons c rest =>
        cases hrem : removeGo r (c :: rest) with
        | interrupted => simp [Trie.Remove, hrem]
        | deleted =>
          simp only [Trie.Remove, hrem, Trie.valueAt_none, Trie.valueAt_some]
          exact (removeGo_deleted_valueAt r (c :: rest) hrem k2 h).symm
        | replaced m =>
          have hval := removeGo_replaced_valueAt r (c :: rest) m hrem k2 h
          simp only [Trie.Remove, hrem]
          by_cases hdead : m.value.isNone && m.children.isEmpty
          · have hvnone : m.value = none :=
              Option.isNone_iff_eq_none.mp (bool_and_true hdead).1
            have hnil : m.children = [] := by
              simpa using (bool_and_true hdead).2
            simp only [hdead, if_true, Trie.valueAt_none, Trie.valueAt_some]
            rw [← hval]
            cases k2 with
            | nil => simp [hvnone]
            | cons c2 rest2 =>
              simp [valueAt_cons_missing m c2 rest2 (by simp [hnil, findChild])]
          · simpa [hdead] using hval

/-! ### Claim theorems (first batch) -/

/-- Claim C2: for every trie `t`, key `k` and value `v`, the round-trip
`t.Put(k, v).Get<T>(k)` (with `T` the runtime type of `v`) returns the value
`v` just stored — never absent — including the empty key. -/
theorem put_get_roundtrip (t : Trie) (key : List Char) (v : TVal) :
    (t.Put key v).Get v.ty key = some v := by
  rw [Trie.Get_eq_valueAt, Trie.valueAt_put_self]
  simp

/-- Claim C7: a type mismatch is a soft miss: if the value stored at `k` has
runtime type `T1` and a different type `T2` is requested, `Get<T2>(k)`
returns absent (never a fault and never another value). -/
theorem get_type_mismatch (t : Trie) (key : List Char) (v : TVal) (τ : Ty)
    (hv : t.valueAt key = some v) (hτ : τ ≠ v.ty) : t.Get τ key = none := by
  rw [Trie.Get_eq_valueAt, hv]
  simp [Ne.symm hτ]

/-- Witness for C7: `Put<uint32_t>("k", 5)` then `Get<std::string>("k")` is
absent. -/
theorem get_type_mismatch_witness :
    (Trie.empty.Put ['k'] (.u32 5)).valueAt ['k'] = some (.u32 5) ∧
      Ty.str ≠ (TVal.u32 5).ty ∧
      (Trie.empty.Put ['k'] (.u32 5)).Get .str ['k'] = none :=
  ⟨by decide, by decide,
    get_type_mismatch (Trie.empty.Put ['k'] (.u32 5)) ['k'] (.u32 5) .str (by decide) (by decide)⟩

/-- Claim C9: an empty-key `Put` overwrites the value directly on the root:
the result's root node carries the supplied value, and its children map is
exactly the receiver's root children map (empty for the empty trie). -/
theorem put_empty_key_root (t : Trie) (v : TVal) :
    (t.Put [] v).root = some (.mk t.rootChildren (some v)) := by
  cases t with
  | mk root => cases root <;> rfl

/-- Claim C10: on the default-constructed empty trie (null root), `Get`
returns absent for every key — including the empty key — and every type. -/
theorem get_on_empty_trie (τ : Ty) (key : List Char) : Trie.empty.Get τ key = none := rfl

/-- Claim C1 fails on the code: after `T2 = Put("a",1).Put("ab",2)`, the
overwrite `T2.Put("a", 3)` rebuilds the node at `"a"` with an empty children
map (the children-inheritance branch is unreachable for one-character keys),
so `"ab"` is lost: `Get<uint32_t>("ab")` is absent instead of `2`, while
`Get<uint32_t>("a")` is `3`. -/
theorem put_single_char_drops_descendants :
    (((Trie.empty.Put ['a'] (.u32 1)).Put ['a', 'b'] (.u32 2)).Put ['a'] (.u32 3)).Get
        .u32 ['a', 'b'] = none ∧
      (((Trie.empty.Put ['a'] (.u32 1)).Put ['a', 'b'] (.u32 2)).Put ['a'] (.u32 3)).Get
        .u32 ['a'] = some (.u32 3) := by
  constructor <;> decide

/-- Claim C3 fails on the code for the empty key: on a trie whose root holds
a value and has children, `Remove("")` builds a stripped root but then
overwrites it with the untouched clone (`new_root = std::move(slot)`), so the
root's value survives: `Put("a",1).Put("",7).Remove("").Get<uint32_t>("")`
returns `7` instead of absent. -/
theorem remove_empty_key_keeps_root_value :
    (((Trie.empty.Put ['a'] (.u32 1)).Put [] (.u32 7)).Remove []).Get .u32 [] =
      some (.u32 7) := by
  decide

/-- Claim C6: removing a key that holds no value — walk interrupted, landing
on a non-value node, or empty trie — returns a content-equivalent trie
(every `Get` agrees), and `Remove` on the empty trie returns the empty
trie. -/
theorem remove_absent_key_noop (t : Trie) (k : List Char) (h : t.valueAt k = none)
    (τ : Ty) (k2 : List Char) :
    (t.Remove k).Get τ k2 = t.Get τ k2 ∧ Trie.empty.Remove k = Trie.empty := by
  refine ⟨?_, rfl⟩
  rw [Trie.Get_eq_valueAt, Trie.Get_eq_valueAt, Trie.remove_absent_key_valueAt t k h k2]

/-- Witness for C6: removing the never-inserted key `"b"` from
`Put("a", 1)` leaves `Get<uint32_t>("a")` unchanged. -/
theorem remove_absent_key_noop_witness :
    (Trie.empty.Put ['a'] (.u32 1)).valueAt ['b'] = none ∧
      ((Trie.empty.Put ['a'] (.u32 1)).Remove ['b']).Get .u32 ['a'] =
          (Trie.empty.Put ['a'] (.u32 1)).Get .u32 ['a'] ∧
        Trie.empty.Remove ['b'] = Trie.empty :=
  ⟨by decide, remove_absent_key_noop (Trie.empty.Put ['a'] (.u32 1)) ['b'] (by decide) .u32 ['a']⟩

/-- Claim C8: `Remove` preserves every other key: for `k2 ≠ k` and every
requested type, `t.Remove(k).Get<T>(k2)` equals `t.Get<T>(k2)`. -/
theorem remove_preserves_other_keys (t : Trie) (k k2 : List Char) (τ : Ty)
    (h : k2 ≠ k) : (t.Remove k).Get τ k2 = t.Get τ k2 := by
  rw [Trie.Get_eq_valueAt, Trie.Get_eq_valueAt, Trie.remove_other_key_valueAt t k k2 h]

/-- Witness for C8: after removing `"ab"`, the key `"a"` still answers with
its old value. -/
theorem remove_preserves_other_keys_witness :
    (['a'] : List Char) ≠ ['a', 'b'] ∧
      (((Trie.empty.Put ['a'] (.u32 3)).Put ['a', 'b'] (.u32 2)).Remove ['a', 'b']).Get
          .u32 ['a'] =
        ((Trie.empty.Put ['a'] (.u32 3)).Put ['a', 'b'] (.u32 2)).Get .u32 ['a'] :=
  ⟨by decide,
    remove_preserves_other_keys ((Trie.empty.Put ['a'] (.u32 3)).Put ['a', 'b'] (.u32 2))
      ['a', 'b'] ['a'] .u32 (by decide)⟩

/-! ### The dead-node invariant -/

theorem alive_mk (ch : List (Char × TrieNode)) (v : Option TVal) :
    (TrieNode.mk ch v).alive = ((v.isSome || !ch.isEmpty) && childrenAlive ch) := by
  simp [TrieNode.alive]

theorem alive_childrenAlive (n : TrieNode) (h : n.alive = true) :
    childrenAlive n.children = true := by
  cases n with
  | mk ch v =>
    rw [alive_mk] at h
    exact (bool_and_true h).2

theorem childrenAlive_findChild (l : List (Char × TrieNode)) (c : Char) (x : TrieNode)
    (hl : childrenAlive l = true) (hf : findChild l c = some x) : x.alive = true := by
  induction l with
  | nil => simp [findChild] at hf
  | cons p rest ih =>
    obtain ⟨c1, y⟩ := p
    simp only [childrenAlive] at hl
    by_cases h1 : c1 = c
    · simp only [findChild, h1, if_true] at hf
      cases hf
      exact (bool_and_true hl).1
    · simp only [findChild, h1, if_false] at hf
      exact ih (bool_and_true hl).2 hf

theorem childrenAlive_setChild (l : List (Char × TrieNode)) (c : Char) (x : TrieNode)
    (hl : childrenAlive l = true) (hx : x.alive = true) :
    childrenAlive (setChild l c x) = true := by
  induction l with
  | nil => simp [setChild, childrenAlive, hx]
  | cons p rest ih =>
    obtain ⟨c1, y⟩ := p
    simp only [childrenAlive] at hl
    by_cases h1 : c1 = c <;>
      simp [setChild, childrenAlive, h1, hx, (bool_and_true hl).1,
        ih (bool_and_true hl).2, (bool_and_true hl).2]

theorem childrenAlive_eraseChild (l : List (Char × TrieNode)) (c : Char)
    (hl : childrenAlive l = true) : childrenAlive (eraseChild l c) = true := by
  induction l with
  | nil => simp [eraseChild, childrenAlive]
  | cons p rest ih =>
    obtain ⟨c1, y⟩ := p
    simp only [childrenAlive] at hl
    by_cases h1 : c1 = c <;>
      simp [eraseChild, childrenAlive, h1, (bool_and_true hl).1,
        ih (bool_and_true hl).2]

theorem putGo_alive (n : TrieNode) (v : TVal) :
    (cs : List Char) → cs ≠ [] → childrenAlive n.children = true →
      (putGo n cs v).alive = true
  | [c], _, hn => by
    have hinh : childrenAlive (match findChild n.children c with
        | some old => old.children
        | none => []) = true := by
      cases hf : findChild n.children c with
      | none => simp [childrenAlive]
      | some old =>
        simpa using alive_childrenAlive old (childrenAlive_findChild n.children c old hn hf)
    have hx : (TrieNode.mk (match findChild n.children c with
        | some old => old.children
        | none => []) (some v)).alive = true := by
      rw [alive_mk]
      simp [hinh]
    simp only [putGo, alive_mk, setChild_isEmpty]
    simp [childrenAlive_setChild n.children c _ hn hx]
  | c :: c2 :: rest, _, hn => by
    have hchild : childrenAlive ((findChild n.children c).getD (.mk [] none)).children
        = true := by
      cases hf : findChild n.children c with
      | none => simp [childrenAlive]
      | some old =>
        simpa using alive_childrenAlive old (childrenAlive_findChild n.children c old hn hf)
    have ih := putGo_alive ((findChild n.children c).getD (.mk [] none)) v (c2 :: rest)
      (by simp) hchild
    simp only [putGo, alive_mk, setChild_isEmpty]
    simp [childrenAlive_setChild n.children c _ hn ih]

theorem Trie.put_wf (t : Trie) (k : List Char) (v : TVal) (h : t.wf = true) :
    (t.Put k v).wf = true := by
  have hroot : childrenAlive (t.root.getD (.mk [] none)).children = true := by
    cases t with
    | mk root =>
      cases root with
      | none => simp [childrenAlive]
      | some r => simpa using alive_childrenAlive r (by simpa [Trie.wf] using h)
  cases k with
  | nil =>
    simp only [Trie.Put, Trie.wf, alive_mk]
    simp [hroot]
  | cons c rest =>
    cases rest with
    | nil =>
      have hx : (TrieNode.mk [] (some v)).alive = true := by
        rw [alive_mk]
        simp [childrenAlive]
      simp only [Trie.Put, Trie.wf, alive_mk, setChild_isEmpty]
      simp [childrenAlive_setChild _ c _ hroot hx]
    | cons c2 rest2 =>
      have hchild : childrenAlive
          ((findChild (t.root.getD (.mk [] none)).children c).getD (.mk [] none)).children
          = true := by
        cases hf : findChild (t.root.getD (.mk [] none)).children c with
        | none => simp [childrenAlive]
        | some old =>
          simpa using
            alive_childrenAlive old (childrenAlive_findChild _ c old hroot hf)
      have hgo := putGo_alive _ v (c2 :: rest2) (by simp) hchild
      simp only [Trie.Put, Trie.wf, alive_mk, setChild_isEmpty]
      simp [childrenAlive_setChild _ c _ hroot hgo]

theorem removeGo_alive (n : TrieNode) :
    (cs : List Char) → (m : TrieNode) → n.alive = true →
      removeGo n cs = .replaced m → m.alive = true
  | [], m, hn, h => by
    cases hv : n.value with
    | none =>
      simp only [removeGo, hv] at h
      cases h
      exact hn
    | some v =>
      by_cases hc : n.children.isEmpty
      · simp [removeGo, hv, hc] at h
      · simp only [removeGo, hv, hc, Bool.false_eq_true, if_false] at h
        cases h
        rw [alive_mk]
        simp [hc, alive_childrenAlive n hn]
  | c :: rest, m, hn, h => by
    cases hf : findChild n.children c with
    | none => simp [removeGo, hf] at h
    | some child =>
      have hca := alive_childrenAlive n hn
      have hchild := childrenAlive_findChild n.children c child hca hf
      cases hr : removeGo child rest with
      | interrupted => simp [removeGo, hf, hr] at h
      | replaced mc =>
        simp only [removeGo, hf, hr] at h
        cases h
        have hmc := removeGo_alive child rest mc hchild hr
        rw [alive_mk]
        simp [childrenAlive_setChild n.children c mc hca hmc]
      | deleted =>
        by_cases hg : (eraseChild n.children c).isEmpty && n.value.isNone
        · simp [removeGo, hf, hr, hg] at h
        · simp only [removeGo, hf, hr, hg, Bool.false_eq_true, if_false] at h
          cases h
          rw [alive_mk]
          have hhead : (n.value.isSome || !(eraseChild n.children c).isEmpty) = true := by
            cases hvn : n.value.isNone <;> cases he : (eraseChild n.children c).isEmpty <;>
              simp_all [Option.isNone_iff_eq_none]
          simp [hhead, childrenAlive_eraseChild n.children c hca]

theorem Trie.remove_wf (t : Trie) (k : List Char) (h : t.wf = true) :
    (t.Remove k).wf = true := by
  cases t with
  | mk root =>
    cases root with
    | none => rfl
    | some r =>
      have hr : r.alive = true := by simpa [Trie.wf] using h
      cases k with
      | nil =>
        by_cases hc : r.children.isEmpty <;> simp [Trie.Remove, hc, Trie.wf, hr]
      | cons c rest =>
        cases hrem : removeGo r (c :: rest) with
        | interrupted => simpa [Trie.Remove, hrem, Trie.wf] using hr
        | deleted => simp [Trie.Remove, hrem, Trie.wf]
        | replaced m =>
          have hm := removeGo_alive r (c :: rest) m hr hrem
          by_cases hdead : m.value.isNone && m.children.isEmpty <;>
            simp [Trie.Remove, hrem, hdead, Trie.wf, hm]

/-- Claim C5: every trie reachable from the empty trie by `Put` and `Remove`
operations satisfies the dead-node invariant: no reachable node is
simultaneously valueless and childless (so after a `Remove` every newly dead
ancestor has been pruned). -/
theorem reachable_wf (t : Trie) (h : Reachable t) : t.wf = true := by
  induction h with
  | empty => rfl
  | put t k v _ ih => exact Trie.put_wf t k v ih
  | remove t k _ ih => exact Trie.remove_wf t k ih

/-- Witness for C5: a put/put/remove sequence that forces pruning of an
unbranching chain still satisfies the invariant. -/
theorem reachable_wf_witness :
    (((Trie.empty.Put ['x'] (.u32 1)).Put ['x', 'y', 'z'] (.u32 9)).Remove
        ['x', 'y', 'z']).wf = true :=
  reachable_wf _
    (Reachable.remove _ _ (Reachable.put _ _ _ (Reachable.put _ _ _ Reachable.empty)))

/-! ### Store lemmas and the immutability of prior versions -/

@[simp]
theorem Store.alloc_fst_size (σ : Store) (x : NodeR) :
    (σ.alloc x).1.size = σ.size + 1 := by
  simp [Store.alloc, Store.size]

@[simp]
theorem Store.alloc_snd (σ : Store) (x : NodeR) : (σ.alloc x).2 = σ.size := rfl

@[simp]
theorem Store.write_size (σ : Store) (p : Nat) (y : NodeR) :
    (σ.write p y).size = σ.size := by
  simp [Store.write, Store.size]

theorem Store.read_alloc_lt (σ : Store) (x : NodeR) (b : Nat) (hb : b < σ.size) :
    (σ.alloc x).1.read b = σ.read b := by
  simp only [Store.alloc, Store.read]
  exact List.getElem?_append_left hb

theorem Store.read_write_ne (σ : Store) (p : Nat) (y : NodeR) (b : Nat) (hb : b ≠ p) :
    (σ.write p y).read b = σ.read b := by
  simp only [Store.write, Store.read]
  exact List.getElem?_set_ne (Ne.symm hb)

@[simp]
theorem cloneH_fst_size (σ : Store) (a : Nat) : (cloneH σ a).1.size = σ.size + 1 := by
  simp [cloneH]

@[simp]
theorem cloneH_snd (σ : Store) (a : Nat) : (cloneH σ a).2 = σ.size := rfl

theorem cloneH_read_lt (σ : Store) (a b : Nat) (hb : b < σ.size) :
    (cloneH σ a).1.read b = σ.read b :=
  Store.read_alloc_lt σ _ b hb

theorem putGoH_frame (v : TVal) :
    (cs : List Char) → ∀ (σ : Store) (parent n0 : Nat), n0 ≤ σ.size → n0 ≤ parent →
      ∀ b, b < n0 → (putGoH σ parent cs v).read b = σ.read b
  | [], σ, parent, n0, _, _, b, _ => rfl
  | [c], σ, parent, n0, hσ, hp, b, hb => by
    have hbp : b ≠ parent := Nat.ne_of_lt (lt_of_lt_of_le hb hp)
    have hbs : b < σ.size := lt_of_lt_of_le hb hσ
    cases hf : findAddr ((σ.read parent).getD ⟨[], none⟩).children c <;>
      simp only [putGoH, hf] <;>
      rw [Store.read_write_ne _ _ _ _ hbp, Store.read_alloc_lt _ _ _ hbs]
  | c :: c2 :: rest, σ, parent, n0, hσ, hp, b, hb => by
    have hbp : b ≠ parent := Nat.ne_of_lt (lt_of_lt_of_le hb hp)
    have hbs : b < σ.size := lt_of_lt_of_le hb hσ
    have hrec := putGoH_frame v (c2 :: rest)
      (σ.alloc (((findAddr ((σ.read parent).getD ⟨[], none⟩).children c).bind
        σ.read).getD ⟨[], none⟩)).1
      σ.size n0 (by simp; omega) hσ b hb
    simp only [putGoH, Store.alloc_snd]
    rw [Store.read_write_ne _ _ _ _ hbp]
    rw [hrec, Store.read_alloc_lt _ _ _ hbs]

theorem PutH_frame (σ : Store) (t : TrieH) (k : List Char) (v : TVal) (b : Nat)
    (hb : b < σ.size) : (PutH σ t k v).1.read b = σ.read b := by
  have halloc : ∀ x : NodeR, (σ.alloc x).1.read b = σ.read b := fun x =>
    Store.read_alloc_lt σ x b hb
  have hb1 : ∀ x : NodeR, b < (σ.alloc x).1.size := by
    intro x
    simp
    omega
  cases hroot : t.root with
  | none =>
    cases k with
    | nil =>
      simp only [PutH, hroot]
      rw [Store.read_alloc_lt _ _ _ (hb1 _), halloc]
    | cons c rest =>
      cases rest with
      | nil =>
        simp only [PutH, hroot, Store.alloc_snd]
        rw [Store.read_write_ne _ _ _ _ (Nat.ne_of_lt hb),
          Store.read_alloc_lt _ _ _ (hb1 _), halloc]
      | cons c2 rest2 =>
        simp only [PutH, hroot, Store.alloc_snd, Store.alloc_fst_size]
        rw [Store.read_write_ne _ _ _ _ (Nat.ne_of_lt hb)]
        rw [putGoH_frame v (c2 :: rest2) _ _ σ.size (by simp; omega) (by omega) b hb]
        rw [Store.read_alloc_lt _ _ _ (hb1 _), halloc]
  | some r =>
    cases k with
    | nil =>
      simp only [PutH, hroot, cloneH]
      rw [Store.read_alloc_lt _ _ _ (hb1 _), halloc]
    | cons c rest =>
      cases rest with
      | nil =>
        simp only [PutH, hroot, cloneH, Store.alloc_snd]
        rw [Store.read_write_ne _ _ _ _ (Nat.ne_of_lt hb),
          Store.read_alloc_lt _ _ _ (hb1 _), halloc]
      | cons c2 rest2 =>
        simp only [PutH, hroot, cloneH, Store.alloc_snd, Store.alloc_fst_size]
        rw [Store.read_write_ne _ _ _ _ (Nat.ne_of_lt hb)]
        rw [putGoH_frame v (c2 :: rest2) _ _ σ.size (by simp; omega) (by omega) b hb]
        rw [Store.read_alloc_lt _ _ _ (hb1 _), halloc]

theorem removeGoH_size :
    (cs : List Char) → ∀ (σ : Store) (a : Nat), σ.size ≤ (removeGoH σ a cs).1.size
  | [], σ, a => by
    simp only [removeGoH]
    cases ((σ.read a).getD ⟨[], none⟩).value with
    | some v =>
      by_cases hc : ((σ.read a).getD ⟨[], none⟩).children.isEmpty <;> simp [hc]
    | none => simp
  | c :: rest, σ, a => by
    simp only [removeGoH]
    cases hf : findAddr ((σ.read a).getD ⟨[], none⟩).children c with
    | none => simp
    | some childOld =>
      dsimp only
      have ih := removeGoH_size rest (cloneH σ childOld).1 (cloneH σ childOld).2
      obtain ⟨⟨σ2, res⟩, hrec⟩ :
          ∃ p, removeGoH (cloneH σ childOld).1 (cloneH σ childOld).2 rest = p := ⟨_, rfl⟩
      rw [hrec] at ih
      rw [hrec]
      simp only [cloneH_fst_size] at ih
      cases res with
      | interrupted => simpa using by omega
      | replacedBy b2 =>
        simp only [Store.write_size]
        omega
      | deleted =>
        by_cases hg : (eraseAddr ((σ.read a).getD ⟨[], none⟩).children c).isEmpty &&
            ((σ.read a).getD ⟨[], none⟩).value.isNone <;>
          simp [hg] <;> omega

theorem removeGoH_frame :
    (cs : List Char) → ∀ (σ : Store) (a n0 : Nat), n0 ≤ σ.size → n0 ≤ a →
      ∀ b, b < n0 → ((removeGoH σ a cs).1).read b = σ.read b
  | [], σ, a, n0, hσ, _, b, hb => by
    simp only [removeGoH]
    cases ((σ.read a).getD ⟨[], none⟩).value with
    | some v =>
      by_cases hc : ((σ.read a).getD ⟨[], none⟩).children.isEmpty
      · simp [hc]
      · simp only [hc, Bool.false_eq_true, if_false]
        exact Store.read_alloc_lt σ _ b (lt_of_lt_of_le hb hσ)
    | none => rfl
  | c :: rest, σ, a, n0, hσ, ha, b, hb => by
    simp only [removeGoH]
    cases hf : findAddr ((σ.read a).getD ⟨[], none⟩).children c with
    | none => rfl
    | some childOld =>
      dsimp only
      have ih := removeGoH_frame rest (cloneH σ childOld).1 (cloneH σ childOld).2 n0
        (by simp only [cloneH_fst_size]; omega) (by simp only [cloneH_snd]; omega) b hb
      have hp1 : (cloneH σ childOld).1.read b = σ.read b :=
        cloneH_read_lt σ childOld b (lt_of_lt_of_le hb hσ)
      obtain ⟨⟨σ2, res⟩, hrec⟩ :
          ∃ p, removeGoH (cloneH σ childOld).1 (cloneH σ childOld).2 rest = p := ⟨_, rfl⟩
      rw [hrec] at ih
      rw [hrec]
      have hba : b ≠ a := Nat.ne_of_lt (lt_of_lt_of_le hb ha)
      cases res with
      | interrupted => exact ih.trans hp1
      | replacedBy b2 =>
        show (σ2.write a ⟨setAddr ((σ.read a).getD ⟨[], none⟩).children c b2,
            ((σ.read a).getD ⟨[], none⟩).value⟩).read b = σ.read b
        rw [Store.read_write_ne _ _ _ _ hba]
        exact ih.trans hp1
      | deleted =>
        by_cases hg : (eraseAddr ((σ.read a).getD ⟨[], none⟩).children c).isEmpty &&
            ((σ.read a).getD ⟨[], none⟩).value.isNone <;>
          simp only [hg, Bool.false_eq_true, if_true, if_false] <;>
          rw [Store.read_write_ne _ _ _ _ hba] <;>
          exact ih.trans hp1

theorem RemoveH_frame (σ : Store) (t : TrieH) (k : List Char) (b : Nat)
    (hb : b < σ.size) : (RemoveH σ t k).1.read b = σ.read b := by
  cases hroot : t.root with
  | none => simp [RemoveH, hroot]
  | some r =>
    cases k with
    | nil =>
      by_cases hc : (((cloneH σ r).1.read (cloneH σ r).2).getD ⟨[], none⟩).children.isEmpty
      · simp only [RemoveH, hroot, hc, if_true]
        exact cloneH_read_lt σ r b hb
      · simp only [RemoveH, hroot, hc, Bool.false_eq_true, if_false]
        rw [Store.read_alloc_lt _ _ _ (by simp only [cloneH_fst_size]; omega)]
        exact cloneH_read_lt σ r b hb
    | cons c rest =>
      have hfr := removeGoH_frame (c :: rest) (cloneH σ r).1 (cloneH σ r).2 σ.size
        (by simp only [cloneH_fst_size]; omega) (by simp only [cloneH_snd]; omega) b hb
      have hsz := removeGoH_size (c :: rest) (cloneH σ r).1 (cloneH σ r).2
      have hp1 : (cloneH σ r).1.read b = σ.read b := cloneH_read_lt σ r b hb
      simp only [RemoveH, hroot]
      obtain ⟨⟨σ2, res⟩, hrec⟩ :
          ∃ p, removeGoH (cloneH σ r).1 (cloneH σ r).2 (c :: rest) = p := ⟨_, rfl⟩
      rw [hrec] at hfr hsz
      rw [hrec]
      simp only [cloneH_fst_size] at hsz
      cases res with
      | interrupted =>
        show (cloneH σ2 r).1.read b = σ.read b
        rw [cloneH_read_lt σ2 r b (by omega)]
        exact hfr.trans hp1
      | deleted => exact hfr.trans hp1
      | replacedBy b2 =>
        by_cases hdead : ((σ2.read b2).getD ⟨[], none⟩).value.isNone &&
            ((σ2.read b2).getD ⟨[], none⟩).children.isEmpty <;>
          simp only [hdead, Bool.false_eq_true, if_true, if_false] <;>
          exact hfr.trans hp1

/-! ### Reads below the old frontier determine `GetH` -/

theorem findAddr_mem (l : List (Char × Nat)) (c : Char) (b : Nat)
    (h : findAddr l c = some b) : (c, b) ∈ l := by
  induction l with
  | nil => simp [findAddr] at h
  | cons p rest ih =>
    obtain ⟨c1, y⟩ := p
    by_cases h1 : c1 = c
    · subst h1
      simp only [findAddr, if_true] at h
      cases h
      exact List.mem_cons_self _ _
    · simp only [findAddr, h1, if_false] at h
      exact List.mem_cons_of_mem _ (ih h)

theorem Store.read_mem (σ : Store) (a : Nat) (nr : NodeR) (h : σ.read a = some nr) :
    nr ∈ σ.mem :=
  List.getElem?_mem h

theorem findNodeH_lt (σ : Store) (hcl : σ.Closed) :
    (key : List Char) → ∀ a b2, a < σ.size → findNodeH σ a key = some b2 → b2 < σ.size
  | [], a, b2, ha, h => by
    simp only [findNodeH] at h
    cases h
    exact ha
  | c :: rest, a, b2, ha, h => by
    simp only [findNodeH] at h
    cases hr : σ.read a with
    | none => simp [hr] at h
    | some nr =>
      simp only [hr] at h
      cases hf : findAddr nr.children c with
      | none => simp [hf] at h
      | some b3 =>
        simp only [hf] at h
        have hb3 : b3 < σ.size :=
          hcl nr (σ.read_mem a nr hr) (c, b3) (findAddr_mem nr.children c b3 hf)
        exact findNodeH_lt σ hcl rest b3 b2 hb3 h

theorem findNodeH_agree (σ σ2 : Store) (hcl : σ.Closed)
    (hag : ∀ b, b < σ.size → σ2.read b = σ.read b) :
    (key : List Char) → ∀ a, a < σ.size → findNodeH σ2 a key = findNodeH σ a key
  | [], a, _ => rfl
  | c :: rest, a, ha => by
    simp only [findNodeH]
    rw [hag a ha]
    cases hr : σ.read a with
    | none => simp
    | some nr =>
      simp only []
      cases hf : findAddr nr.children c with
      | none => simp [hf]
      | some b3 =>
        simp only [hf]
        exact findNodeH_agree σ σ2 hcl hag rest b3
          (hcl nr (σ.read_mem a nr hr) (c, b3) (findAddr_mem nr.children c b3 hf))

theorem GetH_agree (σ σ2 : Store) (t : TrieH) (hcl : σ.Closed)
    (hag : ∀ b, b < σ.size → σ2.read b = σ.read b) (hok : rootOk σ t = true)
    (τ : Ty) (key : List Char) : GetH σ2 t τ key = GetH σ t τ key := by
  cases hroot : t.root with
  | none => simp [GetH, hroot]
  | some r =>
    have hr : r < σ.size := by
      simpa [rootOk, hroot] using hok
    simp only [GetH, hroot]
    rw [findNodeH_agree σ σ2 hcl hag key r hr]
    cases hfind : findNodeH σ r key with
    | none => rfl
    | some a =>
      simp only [hag a (findNodeH_lt σ hcl key r a hr hfind)]

/-- Claim C4: `Put` and `Remove` are non-mutating on their receiver: over
the store model, neither operation writes any address allocated before it
began (the prior version's reachable nodes are unchanged), and consequently
every `Get` on the prior handle returns exactly what it returned before the
new version was built. -/
theorem put_remove_immutable (σ : Store) (t1 : TrieH) (k k2 : List Char) (v : TVal)
    (τ : Ty) (hcl : σ.Closed) (hok : rootOk σ t1 = true) :
    ((∀ b, b < σ.size → (PutH σ t1 k v).1.read b = σ.read b) ∧
        GetH (PutH σ t1 k v).1 t1 τ k2 = GetH σ t1 τ k2) ∧
      (∀ b, b < σ.size → (RemoveH σ t1 k).1.read b = σ.read b) ∧
        GetH (RemoveH σ t1 k).1 t1 τ k2 = GetH σ t1 τ k2 :=
  ⟨⟨fun b hb => PutH_frame σ t1 k v b hb,
      GetH_agree σ (PutH σ t1 k v).1 t1 hcl (fun b hb => PutH_frame σ t1 k v b hb) hok τ k2⟩,
    fun b hb => RemoveH_frame σ t1 k b hb,
    GetH_agree σ (RemoveH σ t1 k).1 t1 hcl (fun b hb => RemoveH_frame σ t1 k b hb) hok τ k2⟩

/-- Witness for C4: a two-node store (root `0` with child `a` at address `1`
holding `1`) is closed, its handle is valid, and both conclusions hold for
`Put("a", 2)` / `Remove("a")` queried back at `"a"`. -/
theorem put_remove_immutable_witness :
    (Store.mk [⟨[('a', 1)], none⟩, ⟨[], some (.u32 1)⟩]).Closed ∧
      rootOk (Store.mk [⟨[('a', 1)], none⟩, ⟨[], some (.u32 1)⟩]) ⟨some 0⟩ = true ∧
      GetH (PutH (Store.mk [⟨[('a', 1)], none⟩, ⟨[], some (.u32 1)⟩]) ⟨some 0⟩ ['a']
            (.u32 2)).1 ⟨some 0⟩ .u32 ['a'] =
        GetH (Store.mk [⟨[('a', 1)], none⟩, ⟨[], some (.u32 1)⟩]) ⟨some 0⟩ .u32 ['a'] :=
  ⟨by unfold Store.Closed; decide, by decide,
    ((put_remove_immutable (Store.mk [⟨[('a', 1)], none⟩, ⟨[], some (.u32 1)⟩]) ⟨some 0⟩
        ['a'] ['a'] (.u32 2) .u32 (by unfold Store.Closed; decide) (by decide)).1).2⟩

end BusTub
